import Mathlib

/-!
Verification of the data-analyst agent control plane.

The repository snapshot contains the Svelte web UI (src/apps/web and the
unnamed Svelte components); the derived queries over agent runs
(stepStatus, stepLog, completionPercent, combinedFeed, the pagination
handlers) are embedded below directly from that source.  The orchestrator
backend (Policy Engine, Step Executor, Snapshot Store, Rollback Manager,
Run Orchestrator) is not part of the snapshot, so those components are
modelled from the specification; each such definition carries a doc
comment starting with "Modelled from the spec:".
-/

namespace DataAnalyst

/-! ## UI data model (types declared in the Svelte components) -/

/-- Approval record of a LogEntry, as typed in the AgentRunsCard and
AgentChatTracePanel components. -/
structure Approval where
  approved_by : Option String
  approved_at : Option String
  note : Option String
deriving DecidableEq, Repr

/-- Log entry of an agent run as typed in the UI.  The field created_at is
an ISO string in the UI; the feed code only ever uses the parsed value
given by new Date(created_at).getTime() with 0 for a falsy field, so the
embedding stores the parsed millisecond value directly, with none for an
absent field (a value of some 0 behaves exactly like an absent field in
the comparator, matching the JS truthiness test on the parsed number). -/
structure LogEntry where
  step_id : Option String
  status : Option String
  tool : Option String
  artifacts : List String
  diff : Option String
  approvals : List Approval
  created_at : Option Nat
deriving DecidableEq, Repr

/-- Plan step as typed in the UI (plan.steps elements). -/
structure Step where
  id : Option String
  title : String
  tool : Option String
  requires_approval : Option Bool
deriving DecidableEq, Repr

/-- Plan of an agent run as typed in the UI. -/
structure AgentPlan where
  objective : String
  steps : List Step
deriving DecidableEq, Repr

/-- Agent run as typed in the UI. -/
structure AgentRun where
  id : String
  status : String
  plan : AgentPlan
  log : List LogEntry
deriving DecidableEq, Repr

/-- Status string of a plan step, from stepStatus in src/unnamed/part_002
lines 354-358 (the identical function also appears at lines 58-62 of that
file and in ProjectsCard.svelte lines 128-132).  The JS guard
if (!stepId) return "pending" treats both a missing id and the empty
string as falsy; run.log.find returns the first entry whose step_id
matches; entry?.status ?? "pending" defaults a missing status. -/
def stepStatus (run : AgentRun) (stepId : Option String) : String :=
  match stepId with
  | none => "pending"
  | some sid =>
    if sid = "" then "pending"
    else
      match run.log.find? (fun item => item.step_id == some sid) with
      | some entry => entry.status.getD "pending"
      | none => "pending"

/-- Log entry shown for a plan step, from stepLog in src/unnamed/part_002
lines 360-363: the first entry of run.log whose step_id matches. -/
def stepLog (run : AgentRun) (stepId : Option String) : Option LogEntry :=
  match stepId with
  | none => none
  | some sid =>
    if sid = "" then none
    else run.log.find? (fun item => item.step_id == some sid)

/-- Rounding used by JS Math.round: the ECMAScript specification defines
Math.round on the exact mathematical value of its double argument,
rounding half toward positive infinity. -/
def jsRound (q : ℚ) : ℤ := ⌊q + 1 / 2⌋

/-- Number of plan steps whose derived status is "applied", the filter
inside completionPercent (src/unnamed/part_002 lines 365-371). -/
def appliedStepCount (run : AgentRun) : ℕ :=
  (run.plan.steps.filter (fun step => stepStatus run step.id == "applied")).length

/-- Round a rational to the nearest integer, ties to even: the rounding
the IEEE-754 default mode applies to the scaled significand. -/
def roundNearestEven (x : ℚ) : ℤ :=
  if Int.fract x < 1 / 2 then ⌊x⌋
  else if 1 / 2 < Int.fract x then ⌊x⌋ + 1
  else if ⌊x⌋ % 2 = 0 then ⌊x⌋ else ⌊x⌋ + 1

/-- Floor of the base-two logarithm, by structural recursion on a fuel
argument so that the kernel can evaluate it. -/
def natLog2Fuel : ℕ → ℕ → ℕ
  | 0, _ => 0
  | fuel + 1, n => if n ≤ 1 then 0 else natLog2Fuel fuel (n / 2) + 1

/-- Floor of the base-two logarithm of a natural number. -/
def natLog2 (n : ℕ) : ℕ := natLog2Fuel n n

/-- Binary exponent of a positive rational: the unique e with
2 ^ e ≤ q < 2 ^ (e + 1) (theorem findExp_spec). -/
def findExp (q : ℚ) : ℤ :=
  let n := q.num.toNat
  let d := q.den
  let shift := natLog2 d + 2
  (natLog2 (n * 2 ^ shift / d) : ℤ) - shift

/-- Correct rounding of a non-negative rational to 53 significant bits,
round to nearest, ties to even: the IEEE-754 binary64 (double) rounding
for values in the normal range.  Overflow and subnormal underflow cannot
occur for the values reached by the percentage computation modelled here
and are not modelled; a non-positive argument (only 0 occurs) maps
to 0. -/
def rnd53 (q : ℚ) : ℚ :=
  if q ≤ 0 then 0
  else (roundNearestEven (q * 2 ^ (52 - findExp q)) : ℚ) * 2 ^ (findExp q - 52)

/-- Double-precision division: the correctly rounded exact quotient, as
IEEE-754 requires of the JS / operator on doubles. -/
def fdiv (x y : ℚ) : ℚ := rnd53 (x / y)

/-- Double-precision multiplication: the correctly rounded exact
product, as IEEE-754 requires of the JS * operator on doubles. -/
def fmul (x y : ℚ) : ℚ := rnd53 (x * y)

/-- Completion percentage of a run, from completionPercent in
src/unnamed/part_002 lines 365-371 (also lines 69-75): 0 for an empty
plan, otherwise Math.round((applied / total) * 100).  The JS engine
computes in IEEE-754 binary64: applied and total are exact small
integers (a JS array length is below 2 ^ 32, far below 2 ^ 53), the
quotient and the product are correctly rounded doubles (fdiv and fmul),
and Math.round is applied to the exact value of the resulting double
(jsRound). -/
def completionPercent (run : AgentRun) : ℤ :=
  if run.plan.steps.length = 0 then 0
  else jsRound (fmul (fdiv (appliedStepCount run : ℚ) (run.plan.steps.length : ℚ)) 100)

/-- Definition following the words of the C3 claim: the exact percentage
applied / total * 100 computed over exact rationals and rounded half-up
to the nearest integer.  It exists only to be compared with the source
function completionPercent, which computes in doubles; the two differ at
exact half-way percentages, where the double product can fall just below
the half (see the C3 counterexample). -/
def completionPercentSpecExact (run : AgentRun) : ℤ :=
  if run.plan.steps.length = 0 then 0
  else jsRound (((appliedStepCount run : ℚ) / (run.plan.steps.length : ℚ)) * 100)

/-- Modelled from the spec: the Action Journal query
findByStep(runId, stepId) -> latest LogEntry or none, with the current
status of a step computed as the latest entry for that step_id
(spec sections 4.4 and 9).  This spec-side definition exists only to be
compared with the source function stepStatus. -/
def stepStatusSpecLatest (run : AgentRun) (stepId : Option String) : String :=
  match stepId with
  | none => "pending"
  | some sid =>
    match (run.log.filter (fun item => item.step_id == some sid)).getLast? with
    | some entry => entry.status.getD "pending"
    | none => "pending"

/-- Boolean test for a plan step having a matching log entry under the
step-status query (a present, non-empty id carried by some log entry). -/
def stepHasEntry (run : AgentRun) (s : Step) : Bool :=
  match s.id with
  | none => false
  | some sid => (sid != "") && run.log.any (fun e => e.step_id == some sid)

/-! ## Combined chat and trace feed (AgentChatTracePanel.svelte) -/

/-- Chat message as typed in AgentChatTracePanel.svelte; created_at is
stored as the parsed millisecond value, as for LogEntry. -/
structure ChatMessage where
  id : String
  role : String
  content : String
  created_at : Option Nat
  run_id : Option String
deriving DecidableEq, Repr

/-- Item of the combined feed built in AgentChatTracePanel.svelte lines
88-114: a chat message or a tool log entry of the selected run, each with
its numeric time (0 when the timestamp is falsy) and, for tool items, the
index of the entry in the run log. -/
inductive FeedItem where
  | message (id : String) (time : Nat) (msg : ChatMessage)
  | tool (id : String) (time : Nat) (entry : LogEntry) (index : Nat)
deriving DecidableEq, Repr

/-- Time of a feed item (the time field computed at feed construction). -/
def FeedItem.time : FeedItem → Nat
  | .message _ t _ => t
  | .tool _ t _ _ => t

/-- Whether a feed item is a tool entry (the kind field). -/
def FeedItem.isTool : FeedItem → Bool
  | .message _ _ _ => false
  | .tool _ _ _ _ => true

/-- Index of a tool feed item in the run log; only ever read by the
comparator when both items are tool items. -/
def FeedItem.index : FeedItem → Nat
  | .message _ _ _ => 0
  | .tool _ _ _ i => i

/-- Feed array before sorting, from AgentChatTracePanel.svelte lines
88-114: one item per chat message (time 0 when created_at is falsy),
followed by one item per log entry of the selected run, in log order,
with id run.id-index. -/
def builtFeed (messages : List ChatMessage) (selectedRun : Option AgentRun) : List FeedItem :=
  messages.map (fun m => FeedItem.message m.id (m.created_at.getD 0) m)
    ++ match selectedRun with
       | some run =>
           run.log.enum.map
             (fun p => FeedItem.tool (run.id ++ "-" ++ toString p.1) (p.2.created_at.getD 0) p.2 p.1)
       | none => []

/-- Comparator passed to Array.prototype.sort in AgentChatTracePanel.svelte
lines 115-121.  Times are the parsed millisecond values, with 0 standing
for every falsy time. -/
def feedCmp (a b : FeedItem) : ℤ :=
  if a.time ≠ 0 ∧ b.time ≠ 0 ∧ a.time ≠ b.time then (a.time : ℤ) - (b.time : ℤ)
  else if a.time ≠ 0 ∧ b.time = 0 then -1
  else if a.time = 0 ∧ b.time ≠ 0 then 1
  else if a.isTool = true ∧ b.isTool = true then (a.index : ℤ) - (b.index : ℤ)
  else 0

/-- Ordering relation induced by the feed comparator. -/
def feedLe (a b : FeedItem) : Prop := feedCmp a b ≤ 0

instance : DecidableRel feedLe := fun a b => by
  unfold feedLe
  infer_instance

/-- Combined feed, from AgentChatTracePanel.svelte lines 87-122: the run
selected by selectedRunId (runs.find, or none), the feed built from the
messages and that run, sorted with the comparator feedCmp.
Array.prototype.sort is a stable comparator sort (ES2019); it is modelled
by the stable insertion sort on the relation feedCmp a b <= 0. -/
def combinedFeed (messages : List ChatMessage) (runs : List AgentRun)
    (selectedRunId : String) : List FeedItem :=
  List.insertionSort feedLe
    (builtFeed messages (runs.find? (fun run => run.id == selectedRunId)))

/-! ## Pagination handlers (+page.svelte) -/

/-- State of one paginated list: the fetch offset and the page limit. -/
structure PagerState where
  offset : ℤ
  limit : ℤ
deriving DecidableEq, Repr

/-- User pagination action.  The next action carries the hasNext flag the
handler reads; reset models the offset := 0 writes done by the create and
select handlers. -/
inductive PagerAction where
  | next (hasNext : Bool)
  | prev
  | reset
deriving DecidableEq, Repr

/-- One pagination handler call, from +page.svelte.  The five handler
pairs are syntactically identical up to the state names:
nextProjectsPage/prevProjectsPage (lines 474-484),
nextDatasetsPage/prevDatasetsPage (566-576), nextRunsPage/prevRunsPage
(749-759), nextAgentRunsPage/prevAgentRunsPage (737-747) and
nextArtifactsPage/prevArtifactsPage (860-870; that pair also returns early
without a selected run id, which is covered by a false hasNext).  Next
returns unchanged without hasNext, else adds the limit; prev returns
unchanged at offset 0, else subtracts the limit clamped at zero. -/
def pagerStep (s : PagerState) : PagerAction → PagerState
  | .next hasNext => if hasNext then { s with offset := s.offset + s.limit } else s
  | .prev => if s.offset = 0 then s else { s with offset := max 0 (s.offset - s.limit) }
  | .reset => { s with offset := 0 }

/-- Folding a sequence of pagination actions over a pager state. -/
def pagerRun (s : PagerState) (acts : List PagerAction) : PagerState :=
  acts.foldl pagerStep s

/-! ## Orchestrator backend, modelled from the spec

The FastAPI backend holding the Agent Run Orchestrator is not part of the
repository snapshot (src/ contains only the web UI, which calls it over
HTTP and displays its data).  The following definitions are therefore
modelled from the specification text. -/

/-- Tool descriptor of the Tool Registry (spec section 4.1), matching the
AgentTool type displayed by the UI. -/
structure ToolDescriptor where
  name : String
  description : String
  destructive : Bool
deriving DecidableEq, Repr

/-- Execution mode decided by the Policy Engine. -/
inductive StepMode where
  | dryRun
  | apply
deriving DecidableEq, Repr

/-- Result of the Policy Engine. -/
structure PolicyDecision where
  mode : StepMode
  needsApproval : Bool
deriving DecidableEq, Repr

/-- Modelled from the spec: Policy Engine decide (section 4.2), absent
from src/.  Rules in priority order: 1. a true stepRequiresApproval flag
forces needsApproval regardless of the tool; 2. else a destructive tool
with safe mode on needs approval; 3. else no approval is needed.  The
mode is DryRun whenever approval is needed and not yet recorded, and
Apply once an approval is attached. -/
def decide (tool : ToolDescriptor) (safeMode : Bool) (stepRequiresApproval : Bool)
    (hasApproval : Bool) : PolicyDecision :=
  let needsApproval :=
    if stepRequiresApproval then true
    else if tool.destructive && safeMode then true
    else false
  { needsApproval := needsApproval
    mode := if needsApproval && !hasApproval then StepMode.dryRun else StepMode.apply }

/-- Workspace filesystem abstraction of the spec (section 6): a mapping
from target paths to byte contents. -/
def Workspace : Type := String → String

/-- Modelled from the spec: readTarget(path) (section 6). -/
def readTarget (w : Workspace) (path : String) : String := w path

/-- Modelled from the spec: writeTarget(path, bytes) (section 6). -/
def writeTarget (w : Workspace) (path : String) (bytes : String) : Workspace :=
  fun q => if q = path then bytes else w q

/-- Snapshot record of the Snapshot Store (spec section 3): immutable
captured pre-state of a target path. -/
structure Snapshot where
  id : String
  run_id : Option String
  kind : String
  target_path : String
  content : String
deriving DecidableEq, Repr

/-- Error taxonomy of the spec (section 7). -/
inductive AgentError where
  | invalidArguments
  | unknownTool
  | snapshotNotFound
  | targetConflict
  | invalidTransition
deriving DecidableEq, Repr

/-- Modelled from the spec: Snapshot Store capture(runId, kind,
targetPath) (section 4.5), absent from src/: reads the current state of
the target path, stores it in a new immutable snapshot appended to the
store, and returns the snapshot. -/
def capture (store : List Snapshot) (w : Workspace) (runId : Option String) (kind : String)
    (targetPath : String) : Snapshot × List Snapshot :=
  let snap : Snapshot :=
    { id := toString store.length, run_id := runId, kind := kind,
      target_path := targetPath, content := readTarget w targetPath }
  (snap, store ++ [snap])

/-- Modelled from the spec: Snapshot Store restore (section 4.5), absent
from src/: requires the current target state to match the captured
content unless an explicit force flag is passed (else TargetConflict); on
success the captured bytes are written back to the target path. -/
def restore (snap : Snapshot) (w : Workspace) (force : Bool) : Except AgentError Workspace :=
  if readTarget w snap.target_path = snap.content ∨ force = true then
    Except.ok (writeTarget w snap.target_path snap.content)
  else Except.error AgentError.targetConflict

/-- Tool capability of the executor (spec section 9): a descriptor plus a
validator, a dry-run inspection path returning output without a new
workspace, an apply path returning the mutated workspace with output and
a success flag, and the declared target path for snapshotting. -/
structure AgentTool extends ToolDescriptor where
  validate : String → Bool
  dryRunTool : String → Workspace → String
  applyTool : String → Workspace → Workspace × String × Bool
  target : String → String

/-- Status of a journal entry (spec section 3). -/
inductive EntryStatus where
  | pending
  | approved
  | applied
  | failed
deriving DecidableEq, Repr

/-- Journal entry written by the executor (spec section 3). -/
structure JournalEntry where
  step_id : String
  tool : Option String
  status : EntryStatus
  output : String
  approvals : List Approval
deriving DecidableEq, Repr

/-- Plan step as seen by the orchestrator (spec section 3, plus the
optional flag of sections 4.7 and 7). -/
structure OrchStep where
  id : String
  title : String
  tool : Option String
  requires_approval : Bool
  optional : Bool
deriving DecidableEq, Repr

/-- Mutable state touched by the executor: the live workspace and the
Snapshot Store. -/
structure ExecState where
  workspace : Workspace
  snapshots : List Snapshot

/-- Result of one executor call: the new state, the journal entry
produced, and whether the apply path of the tool was invoked. -/
structure ExecOutcome where
  state : ExecState
  entry : JournalEntry
  invokedApply : Bool

/-- Modelled from the spec: Tool Router / Step Executor executeStep
(section 4.3), absent from src/.  The order of checks follows the spec:
a step without a tool is informational and recorded as applied with no
side effect; an unresolved tool or failed argument validation yields a
failed entry with no side effect; a policy decision needing approval with
none recorded runs only the dry-run path, marks the entry pending and
returns without touching the Snapshot Store; a cleared destructive step
captures a snapshot of the declared target before the apply path runs;
the apply path then yields an applied or failed entry. -/
def executeStep (registry : List AgentTool) (safeMode : Bool) (st : ExecState)
    (runId : Option String) (step : OrchStep) (args : String)
    (approvals : List Approval) : ExecOutcome :=
  match step.tool with
  | none =>
      { state := st,
        entry := { step_id := step.id, tool := none, status := EntryStatus.applied,
                   output := "", approvals := approvals },
        invokedApply := false }
  | some tname =>
      match registry.find? (fun t => t.name == tname) with
      | none =>
          { state := st,
            entry := { step_id := step.id, tool := some tname, status := EntryStatus.failed,
                       output := "UnknownTool", approvals := approvals },
            invokedApply := false }
      | some tool =>
          if tool.validate args = false then
            { state := st,
              entry := { step_id := step.id, tool := some tname, status := EntryStatus.failed,
                         output := "InvalidArguments", approvals := approvals },
              invokedApply := false }
          else
            let d := decide tool.toToolDescriptor safeMode step.requires_approval
              (!approvals.isEmpty)
            if d.needsApproval && approvals.isEmpty then
              { state := st,
                entry := { step_id := step.id, tool := some tname, status := EntryStatus.pending,
                           output := tool.dryRunTool args st.workspace, approvals := approvals },
                invokedApply := false }
            else
              let st1 :=
                if tool.destructive then
                  { st with snapshots :=
                      (capture st.snapshots st.workspace runId "file" (tool.target args)).2 }
                else st
              let res := tool.applyTool args st1.workspace
              { state := { st1 with workspace := res.1 },
                entry := { step_id := step.id, tool := some tname,
                           status := if res.2.2 then EntryStatus.applied else EntryStatus.failed,
                           output := res.2.1, approvals := approvals },
                invokedApply := true }

/-- Run status of the orchestrator state machine (spec section 4.7). -/
inductive RunStatus where
  | pending
  | running
  | completed
  | failed
  | cancelled
deriving DecidableEq, Repr

/-- Journal entry recorded by the orchestrator loop for one step, given
the per-step outcome. -/
def stepEntry (outcome : OrchStep → EntryStatus) (s : OrchStep) : JournalEntry :=
  { step_id := s.id, tool := s.tool, status := outcome s, output := "", approvals := [] }

/-- Modelled from the spec: the Run Orchestrator step loop (section 4.7),
absent from src/.  Steps run strictly in plan order; a failed step that
is not optional fails the Run and the remaining steps are not attempted
(fail-fast); a step left pending by an approval gate suspends the Run in
running; otherwise the loop continues, and an exhausted plan completes
the Run.  The per-step executor result is abstracted as a function from
the step to the entry status it produces. -/
def driveSteps (outcome : OrchStep → EntryStatus) :
    List OrchStep → List JournalEntry × RunStatus
  | [] => ([], RunStatus.completed)
  | s :: rest =>
      if outcome s = EntryStatus.failed ∧ s.optional = false then
        ([stepEntry outcome s], RunStatus.failed)
      else if outcome s = EntryStatus.pending then
        ([stepEntry outcome s], RunStatus.running)
      else
        ((stepEntry outcome s) :: (driveSteps outcome rest).1, (driveSteps outcome rest).2)

/-- Rollback lifecycle status (spec section 3). -/
inductive RollbackStatus where
  | requested
  | applied
  | cancelled
deriving DecidableEq, Repr

/-- Rollback record (spec section 3). -/
structure Rollback where
  id : String
  snapshot_id : Option String
  run_id : Option String
  status : RollbackStatus
  note : Option String
deriving DecidableEq, Repr

/-- Modelled from the spec: Rollback Manager apply (section 4.6), absent
from src/.  Only a requested rollback may be applied; apply delegates to
the Snapshot Store restore and marks the rollback applied on success; on
a restore failure the error is surfaced and the rollback record is left
as it was; any other starting status is InvalidTransition. -/
def applyRollback (store : List Snapshot) (w : Workspace) (r : Rollback)
    (force : Bool) : Except AgentError (Rollback × Workspace) :=
  if r.status = RollbackStatus.requested then
    match r.snapshot_id with
    | none => Except.error AgentError.snapshotNotFound
    | some sid =>
      match store.find? (fun s => s.id == sid) with
      | none => Except.error AgentError.snapshotNotFound
      | some snap =>
        match restore snap w force with
        | Except.ok w2 => Except.ok ({ r with status := RollbackStatus.applied }, w2)
        | Except.error e => Except.error e
  else Except.error AgentError.invalidTransition

/-- Modelled from the spec: Rollback Manager cancel (section 4.6), absent
from src/: only valid while requested, else InvalidTransition. -/
def cancelRollback (r : Rollback) : Except AgentError Rollback :=
  if r.status = RollbackStatus.requested then
    Except.ok { r with status := RollbackStatus.cancelled }
  else Except.error AgentError.invalidTransition

/-- Rollback action gating in the UI, from src/unnamed/part_002 lines
734-743: the apply and cancel buttons are rendered only when the rollback
status string is requested. -/
def rollbackActionsVisible (status : String) : Bool := status == "requested"

/-! ## Concrete sample data used by witnesses and counterexamples -/

/-- Log entry with a given step id, status and time. -/
def mkEntry (sid : Option String) (status : Option String) (t : Option Nat) : LogEntry :=
  { step_id := sid, status := status, tool := none, artifacts := [], diff := none,
    approvals := [], created_at := t }

/-- Run with one step s1 whose log holds a pending entry appended before
an applied entry for the same step (a re-executed gated step). -/
def c2Run : AgentRun :=
  { id := "r1", status := "running",
    plan := { objective := "demo",
              steps := [{ id := some "s1", title := "ingest", tool := none,
                          requires_approval := none }] },
    log := [mkEntry (some "s1") (some "pending") none,
            mkEntry (some "s1") (some "applied") none] }

/-- Run with two steps of which exactly the first has an applied entry. -/
def c3Run : AgentRun :=
  { id := "r3", status := "running",
    plan := { objective := "demo",
              steps := [{ id := some "s1", title := "ingest", tool := none,
                          requires_approval := none },
                        { id := some "s2", title := "profile", tool := none,
                          requires_approval := none }] },
    log := [mkEntry (some "s1") (some "applied") none] }

/-- Run with 40 steps (distinct ids "0" to "39") of which exactly the
first 23 have an applied log entry: the exact completion percentage is
57.5, an exact half-way value. -/
def c3xRun : AgentRun :=
  { id := "rx", status := "running",
    plan := { objective := "forty steps",
              steps := (List.range 40).map (fun i =>
                { id := some (Nat.repr i), title := "step", tool := none,
                  requires_approval := none }) },
    log := (List.range 23).map (fun i => mkEntry (some (Nat.repr i)) (some "applied") none) }

/-- Run with two timed log entries, used to instantiate the feed. -/
def c4Run : AgentRun :=
  { id := "wr", status := "running",
    plan := { objective := "", steps := [] },
    log := [mkEntry (some "s1") (some "pending") (some 5),
            mkEntry (some "s1") (some "applied") (some 5)] }

/-- First tool item the feed builds from c4Run. -/
def c4ItemA : FeedItem :=
  FeedItem.tool "wr-0" 5 (mkEntry (some "s1") (some "pending") (some 5)) 0

/-- Second tool item the feed builds from c4Run. -/
def c4ItemB : FeedItem :=
  FeedItem.tool "wr-1" 5 (mkEntry (some "s1") (some "applied") (some 5)) 1

/-- Empty run used to instantiate default step status. -/
def c10Run : AgentRun :=
  { id := "", status := "", plan := { objective := "", steps := [] }, log := [] }

/-- Destructive sample tool used to instantiate the executor. -/
def sampleTool : AgentTool :=
  { name := "delete_column", description := "drop a column", destructive := true,
    validate := fun _ => true,
    dryRunTool := fun _ _ => "dry",
    applyTool := fun _ w => (w, "", true),
    target := fun _ => "data.csv" }

/-- Sample plan step bound to the destructive sample tool. -/
def sampleStep : OrchStep :=
  { id := "s1", title := "delete a column", tool := some "delete_column",
    requires_approval := false, optional := false }

/-- Workspace holding empty bytes at every path. -/
def emptyWorkspace : Workspace := fun _ => ""

/-- Executor state with an empty workspace and an empty snapshot store. -/
def sampleState : ExecState := { workspace := emptyWorkspace, snapshots := [] }

/-- Steps of Scenario A: a required ingest followed by a required
profile. -/
def c7Steps : List OrchStep :=
  [{ id := "ingest", title := "ingest", tool := some "ingest",
     requires_approval := false, optional := false },
   { id := "profile", title := "profile", tool := some "profile",
     requires_approval := false, optional := false }]

/-- Per-step outcome of Scenario A: profile fails, everything else is
applied. -/
def c7Outcome (s : OrchStep) : EntryStatus :=
  if s.id = "profile" then EntryStatus.failed else EntryStatus.applied

/-- Rollback record that is already applied (terminal). -/
def c5Applied : Rollback :=
  { id := "rb1", snapshot_id := some "0", run_id := none,
    status := RollbackStatus.applied, note := none }

/-! ## Helper lemmas -/

theorem feedLe_total (a b : FeedItem) : feedLe a b ∨ feedLe b a := by
  unfold feedLe feedCmp
  split_ifs <;> omega

theorem feedLe_time_le {a b : FeedItem} (h : feedLe a b) (ha : a.time ≠ 0)
    (hb : b.time ≠ 0) : a.time ≤ b.time := by
  unfold feedLe feedCmp at h
  by_cases hab : a.time = b.time
  · omega
  · simp [ha, hb, hab] at h
    omega

theorem feedLe_zero {a b : FeedItem} (h : feedLe a b) (ha : a.time = 0) :
    b.time = 0 := by
  by_contra hb
  unfold feedLe feedCmp at h
  simp [ha, hb] at h

theorem chain'_orderedInsert (x : FeedItem) (l : List FeedItem)
    (h : l.Chain' feedLe) : (l.orderedInsert feedLe x).Chain' feedLe := by
  induction l with
  | nil => simp [List.orderedInsert]
  | cons y l ih =>
    by_cases hxy : feedLe x y
    · rw [List.orderedInsert, if_pos hxy]
      exact List.chain'_cons.mpr ⟨hxy, h⟩
    · rw [List.orderedInsert, if_neg hxy]
      have hyx : feedLe y x := (feedLe_total x y).resolve_left hxy
      have htail : l.Chain' feedLe := (List.chain'_cons'.mp h).2
      refine List.chain'_cons'.mpr ⟨?_, ih htail⟩
      intro z hz
      cases l with
      | nil =>
        simp [List.orderedInsert] at hz
        subst hz
        exact hyx
      | cons w l' =>
        by_cases hxw : feedLe x w
        · rw [List.orderedInsert, if_pos hxw] at hz
          simp at hz
          subst hz
          exact hyx
        · rw [List.orderedInsert, if_neg hxw] at hz
          simp at hz
          subst hz
          exact (List.chain'_cons.mp h).1

theorem chain'_insertionSort (l : List FeedItem) :
    (l.insertionSort feedLe).Chain' feedLe := by
  induction l with
  | nil => simp [List.insertionSort]
  | cons x l ih => exact chain'_orderedInsert x _ ih

theorem chain'_zero_tail :
    ∀ (l : List FeedItem) (x : FeedItem), (x :: l).Chain' feedLe → x.time = 0 →
      ∀ y ∈ l, y.time = 0 := by
  intro l
  induction l with
  | nil =>
    intro x h hx y hy
    simp at hy
  | cons z l ih =>
    intro x h hx y hy
    have hxz : feedLe x z := (List.chain'_cons.mp h).1
    have hz : z.time = 0 := feedLe_zero hxz hx
    rcases List.mem_cons.mp hy with hy | hy
    · exact hy ▸ hz
    · exact ih z (List.chain'_cons.mp h).2 hz y hy

theorem chain'_time_lb :
    ∀ (l : List FeedItem) (x : FeedItem), (x :: l).Chain' feedLe → x.time ≠ 0 →
      ∀ y ∈ l, y.time ≠ 0 → x.time ≤ y.time := by
  intro l
  induction l with
  | nil =>
    intro x h hx y hy
    simp at hy
  | cons z l ih =>
    intro x h hx y hy hyt
    have hxz : feedLe x z := (List.chain'_cons.mp h).1
    have htail := (List.chain'_cons.mp h).2
    rcases List.mem_cons.mp hy with hy | hy
    · subst hy
      exact feedLe_time_le hxz hx hyt
    · by_cases hz : z.time = 0
      · exact absurd (chain'_zero_tail l z htail hz y hy) hyt
      · exact le_trans (feedLe_time_le hxz hx hz) (ih z htail hz y hy hyt)

theorem chain'_pairwise_time (l : List FeedItem) (h : l.Chain' feedLe) :
    l.Pairwise (fun a b => a.time ≠ 0 → b.time ≠ 0 → a.time ≤ b.time) := by
  induction l with
  | nil => exact List.Pairwise.nil
  | cons x l ih =>
    refine List.pairwise_cons.mpr ⟨?_, ih (List.chain'_cons'.mp h).2⟩
    intro y hy hx hyt
    exact chain'_time_lb l x h hx y hy hyt

theorem find?_first {α : Type} (p : α → Bool) :
    ∀ (l : List α) (i : ℕ) (hi : i < l.length),
      p (l.get ⟨i, hi⟩) = true →
      (∀ j (hj : j < l.length), j < i → p (l.get ⟨j, hj⟩) = false) →
      l.find? p = some (l.get ⟨i, hi⟩) := by
  intro l
  induction l with
  | nil =>
    intro i hi
    exact absurd hi (Nat.not_lt_zero i)
  | cons a l ih =>
    intro i hi hp hfirst
    cases i with
    | zero =>
      simp only [List.get] at hp
      simp [List.find?, hp]
    | succ i =>
      have ha : p a = false := by
        have := hfirst 0 (Nat.succ_pos _) (Nat.succ_pos i)
        simpa using this
      rw [List.find?, ha]
      have hi' : i < l.length := Nat.lt_of_succ_lt_succ hi
      have hp' : p (l.get ⟨i, hi'⟩) = true := hp
      refine (ih i hi' hp' ?_)
      intro j hj hji
      have := hfirst (j + 1) (Nat.succ_lt_succ hj) (Nat.succ_lt_succ hji)
      simpa using this

theorem find?_any {α : Type} (p : α → Bool) (l : List α) (e : α)
    (h : l.find? p = some e) : l.any p = true := by
  have hm : e ∈ l := List.mem_of_find?_eq_some h
  have hp : p e = true := List.find?_some h
  exact List.any_eq_true.mpr ⟨e, hm, hp⟩

theorem stepStatus_applied_hasEntry (run : AgentRun) (s : Step)
    (h : stepStatus run s.id = "applied") : stepHasEntry run s = true := by
  cases hsid : s.id with
  | none =>
    rw [hsid] at h
    simp [stepStatus] at h
  | some sid =>
    rw [hsid] at h
    by_cases he : sid = ""
    · simp [stepStatus, he] at h
    · cases hf : run.log.find? (fun item => item.step_id == some sid) with
      | none => simp [stepStatus, he, hf] at h
      | some entry =>
        have hany := find?_any _ _ _ hf
        simp [stepHasEntry, hsid, he, hany]

theorem natLog2Fuel_spec :
    ∀ (fuel n : ℕ), 1 ≤ n → n ≤ fuel →
      2 ^ natLog2Fuel fuel n ≤ n ∧ n < 2 ^ (natLog2Fuel fuel n + 1) := by
  intro fuel
  induction fuel with
  | zero =>
    intro n h1 h2
    omega
  | succ fuel ih =>
    intro n h1 h2
    by_cases hn : n ≤ 1
    · have hone : n = 1 := by omega
      subst hone
      simp [natLog2Fuel]
    · have ihr := ih (n / 2) (by omega) (by omega)
      have hl := ihr.1
      have hr := ihr.2
      simp only [pow_succ] at hr
      simp only [natLog2Fuel, if_neg hn]
      simp only [pow_succ]
      omega

theorem natLog2_spec (n : ℕ) (h : 1 ≤ n) :
    2 ^ natLog2 n ≤ n ∧ n < 2 ^ (natLog2 n + 1) :=
  natLog2Fuel_spec n n h (Nat.le_refl n)

theorem findExp_spec (q : ℚ) (hq : 0 < q) :
    (2 : ℚ) ^ findExp q ≤ q ∧ q < 2 ^ (findExp q + 1) := by
  have hnum : 0 < q.num := Rat.num_pos.mpr hq
  have hn : 1 ≤ q.num.toNat := by omega
  have hd : 0 < q.den := q.den_pos
  have hnq : ((q.num.toNat : ℕ) : ℚ) = (q.num : ℚ) := by
    have h := Int.toNat_of_nonneg hnum.le
    exact_mod_cast congrArg (fun z : ℤ => (z : ℚ)) h
  have hq_eq : q = (q.num.toNat : ℚ) / (q.den : ℚ) := by
    rw [hnq, Rat.num_div_den q]
  set n := q.num.toNat with hn_def
  set d := q.den with hd_def
  set shift := natLog2 d + 2 with hshift_def
  have hdspec := natLog2_spec d hd
  have hdlt : d * 2 < 2 ^ shift := by
    have h2 := hdspec.2
    simp only [pow_succ] at h2 ⊢
    omega
  set N := n * 2 ^ shift / d with hN_def
  have hN1 : 1 ≤ N := by
    rw [hN_def, Nat.one_le_div_iff hd]
    calc d ≤ d * 2 := by omega
    _ ≤ 2 ^ shift := le_of_lt hdlt
    _ ≤ n * 2 ^ shift := Nat.le_mul_of_pos_left _ hn
  have hkspec := natLog2_spec N hN1
  set k := natLog2 N with hk_def
  have hlowN : 2 ^ k * d ≤ n * 2 ^ shift := by
    calc 2 ^ k * d ≤ N * d := Nat.mul_le_mul_right d hkspec.1
    _ ≤ n * 2 ^ shift := Nat.div_mul_le_self _ _
  have hhighN : n * 2 ^ shift < 2 ^ (k + 1) * d := by
    have hx : n * 2 ^ shift < n * 2 ^ shift / d * d + d := Nat.lt_div_mul_add hd
    have h2 : n * 2 ^ shift / d * d + d = (N + 1) * d := by
      rw [hN_def]
      ring
    have h3 : (N + 1) * d ≤ 2 ^ (k + 1) * d := Nat.mul_le_mul_right d hkspec.2
    calc n * 2 ^ shift < (N + 1) * d := by rw [← h2]; exact hx
    _ ≤ 2 ^ (k + 1) * d := h3
  have hfe : findExp q = (k : ℤ) - shift := by
    simp only [findExp]
  have hdQ : (0 : ℚ) < (d : ℚ) := by exact_mod_cast hd
  have hsQ : (0 : ℚ) < (2 : ℚ) ^ shift := by positivity
  rw [hfe]
  constructor
  · rw [hq_eq]
    rw [zpow_sub₀ (two_ne_zero), zpow_natCast, zpow_natCast]
    rw [div_le_div_iff hsQ hdQ]
    exact_mod_cast hlowN
  · rw [hq_eq]
    have hcast : (k : ℤ) - shift + 1 = ((k + 1 : ℕ) : ℤ) - (shift : ℤ) := by
      push_cast
      ring
    rw [hcast, zpow_sub₀ (two_ne_zero), zpow_natCast, zpow_natCast]
    rw [div_lt_div_iff hdQ hsQ]
    exact_mod_cast hhighN

theorem findExp_unique (q : ℚ) (e : ℤ) (hq : 0 < q)
    (h1 : (2 : ℚ) ^ e ≤ q) (h2 : q < 2 ^ (e + 1)) : findExp q = e := by
  have hspec := findExp_spec q hq
  by_contra hne
  rcases lt_or_gt_of_ne hne with hlt | hgt
  · have hstep : findExp q + 1 ≤ e := by omega
    have hmono : (2 : ℚ) ^ (findExp q + 1) ≤ 2 ^ e :=
      zpow_le_zpow_right₀ one_le_two hstep
    linarith [hspec.2]
  · have hstep : e + 1 ≤ findExp q := by omega
    have hmono : (2 : ℚ) ^ (e + 1) ≤ 2 ^ findExp q :=
      zpow_le_zpow_right₀ one_le_two hstep
    linarith [hspec.1]

theorem roundNearestEven_err (x : ℚ) : |(roundNearestEven x : ℚ) - x| ≤ 1 / 2 := by
  have hf : Int.fract x = x - ⌊x⌋ := rfl
  have h0 := Int.fract_nonneg x
  have h1 := Int.fract_lt_one x
  unfold roundNearestEven
  split_ifs with ha hb hc <;>
    rw [abs_le] <;> constructor <;> push_cast <;> linarith

theorem roundNearestEven_eval_lt (x : ℚ) (m : ℤ) (hlow : (m : ℚ) ≤ x)
    (hhigh : x < (m : ℚ) + 1 / 2) : roundNearestEven x = m := by
  have hfl : ⌊x⌋ = m := by
    rw [Int.floor_eq_iff]
    constructor
    · exact hlow
    · linarith
  have hfr : Int.fract x < 1 / 2 := by
    have hf : Int.fract x = x - ⌊x⌋ := rfl
    rw [hf, hfl]
    linarith
  unfold roundNearestEven
  rw [if_pos hfr, hfl]

theorem rnd53_eval (q : ℚ) (e : ℤ) (K : ℤ) (hq : 0 < q)
    (h1 : (2 : ℚ) ^ e ≤ q) (h2 : q < 2 ^ (e + 1))
    (hK : roundNearestEven (q * 2 ^ (52 - e)) = K) :
    rnd53 q = (K : ℚ) * 2 ^ (e - 52) := by
  unfold rnd53
  rw [if_neg (not_le.mpr hq), findExp_unique q e hq h1 h2, hK]

theorem rnd53_err (q : ℚ) (hq : 0 < q) : |rnd53 q - q| ≤ q / 2 ^ 53 := by
  have hspec := findExp_spec q hq
  have hne : (2 : ℚ) ≠ 0 := two_ne_zero
  have h2 : (0 : ℚ) < 2 := two_pos
  unfold rnd53
  rw [if_neg (not_le.mpr hq)]
  set e := findExp q with he
  have key : (roundNearestEven (q * 2 ^ (52 - e)) : ℚ) * 2 ^ (e - 52) - q
      = ((roundNearestEven (q * 2 ^ (52 - e)) : ℚ) - q * 2 ^ (52 - e)) * 2 ^ (e - 52) := by
    rw [sub_mul, mul_assoc, ← zpow_add₀ hne]
    norm_num
  rw [key, abs_mul, abs_of_pos (zpow_pos h2 _)]
  have herr := roundNearestEven_err (q * 2 ^ (52 - e))
  have hstep := mul_le_mul_of_nonneg_right herr (le_of_lt (zpow_pos h2 (e - 52)))
  refine le_trans hstep ?_
  have hA : (1 / 2 : ℚ) * 2 ^ (e - 52) = 2 ^ (e - 53) := by
    rw [show (1 / 2 : ℚ) = 2 ^ (-1 : ℤ) by norm_num, ← zpow_add₀ hne]
    congr 1
    ring
  have hB : (2 : ℚ) ^ (e - 53) = 2 ^ e / 2 ^ (53 : ℤ) := zpow_sub₀ hne e 53
  have hC : (2 : ℚ) ^ (53 : ℤ) = 2 ^ (53 : ℕ) := by
    rw [show (53 : ℤ) = ((53 : ℕ) : ℤ) from rfl, zpow_natCast]
  rw [hA, hB, hC]
  rw [div_le_div_iff (by positivity) (by positivity)]
  have := hspec.1
  nlinarith [this, pow_pos h2 53]

theorem rnd53_nonneg (q : ℚ) : 0 ≤ rnd53 q := by
  by_cases h : q ≤ 0
  · unfold rnd53
    rw [if_pos h]
  · have hq : 0 < q := not_le.mp h
    have herr := (abs_le.mp (rnd53_err q hq)).1
    have hd : q / 2 ^ 53 ≤ q := div_le_self hq.le (by norm_num)
    linarith

theorem rnd53_le_sum (q : ℚ) (hq : 0 ≤ q) : rnd53 q ≤ q + q / 2 ^ 53 := by
  rcases eq_or_lt_of_le hq with heq | hlt
  · rw [← heq]
    unfold rnd53
    norm_num
  · have := (abs_le.mp (rnd53_err q hlt)).2
    linarith

theorem rnd53_ge_sub (q : ℚ) (hq : 0 ≤ q) : q - q / 2 ^ 53 ≤ rnd53 q := by
  rcases eq_or_lt_of_le hq with heq | hlt
  · rw [← heq]
    unfold rnd53
    norm_num
  · have := (abs_le.mp (rnd53_err q hlt)).1
    linarith

theorem jsRound_near (p y : ℚ) (m : ℤ) (δ : ℚ) (hy : |y - p| ≤ δ)
    (hlow : (m : ℚ) + δ < p + 1 / 2) (hhigh : p + 1 / 2 + δ < (m : ℚ) + 1) :
    jsRound y = m := by
  unfold jsRound
  rw [Int.floor_eq_iff]
  rw [abs_le] at hy
  constructor
  · linarith
  · linarith

theorem jsRound_le_100 (y : ℚ) (h : y + 1 / 2 < 101) : jsRound y ≤ 100 := by
  unfold jsRound
  have hfl : ⌊y + 1 / 2⌋ < (101 : ℤ) := Int.floor_lt.mpr (by push_cast; linarith)
  omega

theorem jsRound_nonneg (y : ℚ) (h : 0 ≤ y) : 0 ≤ jsRound y := by
  unfold jsRound
  exact Int.le_floor.mpr (by push_cast; linarith)

theorem specExact_closed_form (run : AgentRun) (h0 : run.plan.steps.length ≠ 0) :
    completionPercentSpecExact run
      = ((200 * appliedStepCount run + run.plan.steps.length)
          / (2 * run.plan.steps.length) : ℕ) := by
  have ht : ((run.plan.steps.length : ℚ)) ≠ 0 := by
    exact_mod_cast h0
  unfold completionPercentSpecExact jsRound
  rw [if_neg h0]
  have heq : ((appliedStepCount run : ℚ) / (run.plan.steps.length : ℚ)) * 100 + 1 / 2
      = ((200 * appliedStepCount run + run.plan.steps.length : ℕ) : ℚ)
          / ((2 * run.plan.steps.length : ℕ) : ℚ) := by
    push_cast
    field_simp
    ring
  rw [heq, Rat.floor_natCast_div_natCast, Int.natCast_div]

theorem float_percent_core (a t : ℕ) (ha : a ≤ t) (ht : t ≠ 0) :
    (t < 2 ^ 32 →
      (¬ (200 * a + t) % (2 * t) = 0 →
          jsRound (fmul (fdiv (a : ℚ) (t : ℚ)) 100) = ((200 * a + t) / (2 * t) : ℕ))
      ∧ |(jsRound (fmul (fdiv (a : ℚ) (t : ℚ)) 100) : ℚ) - (a : ℚ) / (t : ℚ) * 100| ≤ 1 / 2)
    ∧ 0 ≤ jsRound (fmul (fdiv (a : ℚ) (t : ℚ)) 100)
    ∧ jsRound (fmul (fdiv (a : ℚ) (t : ℚ)) 100) ≤ 100 := by
  have htpos : 0 < t := Nat.pos_of_ne_zero ht
  have htQ : (0 : ℚ) < (t : ℚ) := by exact_mod_cast htpos
  by_cases ha0 : a = 0
  · subst ha0
    have hx : fdiv ((0 : ℕ) : ℚ) (t : ℚ) = 0 := by
      simp [fdiv, rnd53]
    have hy : fmul (0 : ℚ) 100 = 0 := by
      simp [fmul, rnd53]
    have hj : jsRound (fmul (fdiv ((0 : ℕ) : ℚ) (t : ℚ)) 100) = 0 := by
      rw [hx, hy]
      unfold jsRound
      rw [Int.floor_eq_iff]
      norm_num
    refine ⟨fun hbound => ⟨fun hne => ?_, ?_⟩, by rw [hj], by rw [hj]; norm_num⟩
    · rw [hj]
      rw [show 200 * 0 + t = t by omega, Nat.div_eq_of_lt (by omega)]
      norm_num
    · rw [hj]
      simp
  · have ha1 : 0 < a := Nat.pos_of_ne_zero ha0
    have haQ : (0 : ℚ) < (a : ℚ) := by exact_mod_cast ha1
    set q1 : ℚ := (a : ℚ) / (t : ℚ) with hq1_def
    have hq1pos : 0 < q1 := div_pos haQ htQ
    have hq1le : q1 ≤ 1 := (div_le_one htQ).mpr (by exact_mod_cast ha)
    set x : ℚ := rnd53 q1 with hx_def
    have herr1 := rnd53_err q1 hq1pos
    have hxnn : 0 ≤ x := rnd53_nonneg q1
    have hxle : x ≤ q1 + q1 / 2 ^ 53 := rnd53_le_sum q1 hq1pos.le
    have hxge : q1 - q1 / 2 ^ 53 ≤ x := rnd53_ge_sub q1 hq1pos.le
    have hq1u : q1 / 2 ^ 53 ≤ 1 / 2 ^ 53 := by gcongr
    have hxpos : 0 < x := by
      have hlt : q1 / 2 ^ 53 < q1 := div_lt_self hq1pos (by norm_num)
      linarith
    set q2 : ℚ := x * 100 with hq2_def
    have hq2pos : 0 < q2 := by positivity
    set y : ℚ := rnd53 q2 with hy_def
    have hexpr : fmul (fdiv (a : ℚ) (t : ℚ)) 100 = y := rfl
    set p : ℚ := q1 * 100 with hp_def
    have hple : p ≤ 100 := by
      rw [hp_def]
      linarith
    have hppos : 0 < p := by
      rw [hp_def]
      positivity
    have hq2p : |q2 - p| ≤ q1 / 2 ^ 53 * 100 := by
      rw [hq2_def, hp_def]
      rw [show x * 100 - q1 * 100 = (x - q1) * 100 by ring]
      rw [abs_mul, abs_of_pos (by norm_num : (0 : ℚ) < 100)]
      exact mul_le_mul_of_nonneg_right herr1 (by norm_num)
    have hq2le : q2 ≤ 101 := by
      rw [hq2_def]
      have h1 : x ≤ 1 + 1 / 2 ^ 53 := by linarith
      have h2 : (1 / 2 ^ 53 : ℚ) * 100 ≤ 1 := by norm_num
      linarith
    have herr2 := rnd53_err q2 hq2pos
    have hynn : 0 ≤ y := rnd53_nonneg q2
    have hyp : |y - p| ≤ 1 / 2 ^ 45 := by
      have htri := abs_sub_le y q2 p
      have e1 : |y - q2| ≤ q2 / 2 ^ 53 := herr2
      have e2 : q2 / 2 ^ 53 ≤ 101 / 2 ^ 53 := by gcongr
      have e3 : q1 / 2 ^ 53 * 100 ≤ 100 / 2 ^ 53 := by
        have := mul_le_mul_of_nonneg_right hq1u (by norm_num : (0 : ℚ) ≤ 100)
        linarith [this]
      have e4 : (201 : ℚ) / 2 ^ 53 ≤ 1 / 2 ^ 45 := by norm_num
      have : |y - p| ≤ 201 / 2 ^ 53 := by
        have hsum : (101 : ℚ) / 2 ^ 53 + 100 / 2 ^ 53 = 201 / 2 ^ 53 := by norm_num
        linarith
      linarith
    have hyabs := abs_le.mp hyp
    have hyle : y + 1 / 2 < 101 := by
      have : (1 : ℚ) / 2 ^ 45 ≤ 1 / 4 := by norm_num
      linarith
    refine ⟨fun hbound => ?_, ?_, ?_⟩
    · -- under the array-length bound
      set U := 200 * a + t with hU_def
      set V := 2 * t with hV_def
      have hV : 0 < V := by omega
      set m := U / V with hm_def
      set r := U % V with hr_def
      have hdm : V * m + r = U := Nat.div_add_mod U V
      have hr2 : r < V := Nat.mod_lt _ hV
      have hVQ : (0 : ℚ) < (V : ℚ) := by exact_mod_cast hV
      have hhalf : p + 1 / 2 = ((U : ℕ) : ℚ) / ((V : ℕ) : ℚ) := by
        rw [hp_def, hq1_def, hU_def, hV_def]
        push_cast
        field_simp
        ring
      have hUQ : ((U : ℕ) : ℚ) = (V : ℚ) * (m : ℚ) + (r : ℚ) := by
        exact_mod_cast congrArg (fun k : ℕ => (k : ℚ)) hdm.symm
      have hsplit : p + 1 / 2 = (m : ℚ) + (r : ℚ) / (V : ℚ) := by
        rw [hhalf, hUQ]
        field_simp
        ring
      have hVsmall : (V : ℚ) < 2 ^ 45 := by
        have hnat : V < 2 ^ 45 := by
          rw [hV_def]
          have : (2 : ℕ) ^ 33 ≤ 2 ^ 45 := Nat.pow_le_pow_right (by omega) (by omega)
          have h33 : 2 * t < 2 ^ 33 := by
            have := hbound
            omega
          omega
        exact_mod_cast hnat
      have hδV : (1 : ℚ) / 2 ^ 45 < 1 / (V : ℚ) := by
        have h45 : (0 : ℚ) < 2 ^ 45 := by positivity
        rw [div_lt_div_iff h45 hVQ]
        linarith
      have hnontie : r ≠ 0 → jsRound y = (m : ℤ) := by
        intro hr0
        have hr1 : 1 ≤ r := Nat.pos_of_ne_zero hr0
        have hrQ1 : (1 : ℚ) ≤ (r : ℚ) := by exact_mod_cast hr1
        have hrQ2 : (r : ℚ) < (V : ℚ) := by exact_mod_cast hr2
        have hrv_low : (1 : ℚ) / (V : ℚ) ≤ (r : ℚ) / (V : ℚ) := by gcongr
        have hrv_high : (r : ℚ) / (V : ℚ) ≤ 1 - 1 / (V : ℚ) := by
          rw [div_le_iff hVQ, sub_mul, one_mul, div_mul_cancel₀ _ (ne_of_gt hVQ)]
          have : (r : ℚ) + 1 ≤ (V : ℚ) := by exact_mod_cast hr2
          linarith
      -- separations
        have hsep1 : (m : ℚ) + 1 / (V : ℚ) ≤ p + 1 / 2 := by
          rw [hsplit]
          linarith
        have hsep2 : p + 1 / 2 + 1 / (V : ℚ) ≤ (m : ℚ) + 1 := by
          rw [hsplit]
          linarith
        exact jsRound_near p y m (1 / 2 ^ 45) hyp (by push_cast; linarith)
          (by push_cast; linarith)
      constructor
      · intro hne
        rw [hexpr]
        exact_mod_cast hnontie hne
      · rw [hexpr]
        by_cases hr0 : r = 0
        · -- exact half-way value: the result is one of the two nearest
          have hpm : p + 1 / 2 = (m : ℚ) := by
            rw [hsplit, hr0]
            norm_num
          have hlow2 : ((m - 1 : ℤ) : ℚ) ≤ y + 1 / 2 := by
            push_cast
            have : (1 : ℚ) / 2 ^ 45 < 1 := by norm_num
            linarith [hyabs.1]
          have hhigh2 : y + 1 / 2 < ((m : ℤ) : ℚ) + 1 := by
            push_cast
            have : (1 : ℚ) / 2 ^ 45 < 1 := by norm_num
            linarith [hyabs.2]
          have hfl_ge : (m - 1 : ℤ) ≤ jsRound y := Int.le_floor.mpr hlow2
          have hfl_le : jsRound y ≤ (m : ℤ) := by
            have hlt : y + 1 / 2 < (((m : ℤ) + 1 : ℤ) : ℚ) := by
              push_cast
              push_cast at hhigh2
              linarith
            have hfl := Int.floor_lt.mpr hlt
            unfold jsRound
            omega
          have hcast_ge : ((m : ℚ) - 1) ≤ (jsRound y : ℚ) := by
            exact_mod_cast hfl_ge
          have hcast_le : (jsRound y : ℚ) ≤ (m : ℚ) := by
            exact_mod_cast hfl_le
          rw [abs_le]
          constructor <;> linarith
        · rw [show ((jsRound y : ℚ)) = ((m : ℤ) : ℚ) from by exact_mod_cast congrArg (fun z : ℤ => (z : ℚ)) (hnontie hr0)]
          have hr1 : 1 ≤ r := Nat.pos_of_ne_zero hr0
          have hrQ1 : (1 : ℚ) ≤ (r : ℚ) := by exact_mod_cast hr1
          have hrQ2 : (r : ℚ) < (V : ℚ) := by exact_mod_cast hr2
          have hrv_pos : 0 < (r : ℚ) / (V : ℚ) := by positivity
          have hrv_lt : (r : ℚ) / (V : ℚ) < 1 := (div_lt_one hVQ).mpr hrQ2
          have hm_eq : (m : ℚ) = p + 1 / 2 - (r : ℚ) / (V : ℚ) := by
            rw [hsplit]
            ring
          push_cast
          rw [hm_eq, abs_le]
          constructor <;> linarith
    · rw [hexpr]
      exact jsRound_nonneg y hynn
    · rw [hexpr]
      exact jsRound_le_100 y hyle

theorem fdiv_23_40 : fdiv 23 40 = (5179139571476070 : ℚ) * 2 ^ ((-1 : ℤ) - 52) := by
  unfold fdiv
  exact rnd53_eval ((23 : ℚ) / 40) (-1) 5179139571476070 (by norm_num)
    (by norm_num) (by norm_num)
    (roundNearestEven_eval_lt _ _ (by norm_num) (by norm_num))

theorem fmul_x1_100 :
    fmul ((5179139571476070 : ℚ) * 2 ^ ((-1 : ℤ) - 52)) 100
      = (8092405580431359 : ℚ) * 2 ^ ((5 : ℤ) - 52) := by
  unfold fmul
  exact rnd53_eval _ 5 8092405580431359 (by norm_num) (by norm_num) (by norm_num)
    (roundNearestEven_eval_lt _ _ (by norm_num) (by norm_num))

theorem pagerStep_invariant (s : PagerState) (a : PagerAction)
    (h0 : 0 ≤ s.offset) (hd : s.limit ∣ s.offset) (hl : 0 ≤ s.limit) :
    0 ≤ (pagerStep s a).offset ∧ (pagerStep s a).limit = s.limit
      ∧ (pagerStep s a).limit ∣ (pagerStep s a).offset := by
  cases a with
  | next hasNext =>
    cases hasNext
    · exact ⟨h0, rfl, hd⟩
    · refine ⟨?_, rfl, ?_⟩
      · simp only [pagerStep, if_pos]
        omega
      · simp only [pagerStep, if_pos]
        exact dvd_add hd dvd_rfl
  | prev =>
    by_cases hz : s.offset = 0
    · rw [pagerStep, if_pos hz]
      exact ⟨h0, rfl, hd⟩
    · refine ⟨?_, ?_, ?_⟩
      · simp [pagerStep, hz]
      · simp [pagerStep, hz]
      · simp only [pagerStep, if_neg hz]
        rcases max_choice 0 (s.offset - s.limit) with hm | hm
        · rw [hm]
          exact dvd_zero _
        · rw [hm]
          exact dvd_sub hd dvd_rfl
  | reset =>
    simp [pagerStep]

/-! ## Claim theorems -/

/-- C5: For every Rollback object, the only possible status transitions
are requested to applied and requested to cancelled, both terminal; any
attempt to apply or cancel a rollback that is not in the requested state
is rejected with InvalidTransition and leaves the state unchanged (the
operations are pure and return only an error in that case); the UI offers
the apply and cancel actions only on a requested rollback. -/
theorem c5_rollback_transitions :
    ∀ (store : List Snapshot) (w : Workspace) (force : Bool) (r : Rollback),
      (r.status ≠ RollbackStatus.requested →
          applyRollback store w r force = Except.error AgentError.invalidTransition
            ∧ cancelRollback r = Except.error AgentError.invalidTransition)
      ∧ (∀ (r2 : Rollback) (w2 : Workspace),
          applyRollback store w r force = Except.ok (r2, w2) →
          r.status = RollbackStatus.requested
            ∧ r2 = { r with status := RollbackStatus.applied })
      ∧ (∀ r2 : Rollback, cancelRollback r = Except.ok r2 →
          r.status = RollbackStatus.requested
            ∧ r2 = { r with status := RollbackStatus.cancelled })
      ∧ (∀ s : String, rollbackActionsVisible s = true ↔ s = "requested") := by
  intro store w force r
  refine ⟨?_, ?_, ?_, ?_⟩
  · intro h
    constructor
    · unfold applyRollback
      rw [if_neg h]
    · unfold cancelRollback
      rw [if_neg h]
  · intro r2 w2 hok
    by_cases hr : r.status = RollbackStatus.requested
    · refine ⟨hr, ?_⟩
      unfold applyRollback at hok
      rw [if_pos hr] at hok
      cases hsid : r.snapshot_id with
      | none =>
        simp only [hsid] at hok
        simp at hok
      | some sid =>
        simp only [hsid] at hok
        cases hf : store.find? (fun s => s.id == sid) with
        | none =>
          simp only [hf] at hok
          simp at hok
        | some snap =>
          simp only [hf] at hok
          cases hres : restore snap w force with
          | ok w3 =>
            simp only [hres] at hok
            simp at hok
            exact hok.1.symm
          | error e =>
            simp only [hres] at hok
            simp at hok
    · unfold applyRollback at hok
      rw [if_neg hr] at hok
      simp at hok
  · intro r2 hok
    by_cases hr : r.status = RollbackStatus.requested
    · refine ⟨hr, ?_⟩
      unfold cancelRollback at hok
      rw [if_pos hr] at hok
      simp at hok
      exact hok.symm
    · unfold cancelRollback at hok
      rw [if_neg hr] at hok
      simp at hok
  · intro s
    simp [rollbackActionsVisible]

theorem c5_witness :
    applyRollback [] emptyWorkspace c5Applied false
        = Except.error AgentError.invalidTransition
    ∧ cancelRollback c5Applied = Except.error AgentError.invalidTransition :=
  (c5_rollback_transitions [] emptyWorkspace false c5Applied).1 (by decide)

/-- C6: For every tool descriptor, safe-mode flag, and step, the Policy
Engine decide returns needsApproval true exactly when the step flag
requires_approval is true, or the tool is destructive and safe mode is
on; in every other case it returns false, with the step flag (rule 1)
taking priority over the destructive-and-safe-mode rule (rule 2). -/
theorem c6_policy_decide :
    ∀ (tool : ToolDescriptor) (safeMode stepRequiresApproval hasApproval : Bool),
      ((decide tool safeMode stepRequiresApproval hasApproval).needsApproval
          = (stepRequiresApproval || (tool.destructive && safeMode)))
      ∧ (stepRequiresApproval = true →
          (decide tool safeMode stepRequiresApproval hasApproval).needsApproval = true)
      ∧ (stepRequiresApproval = false → (tool.destructive && safeMode) = false →
          (decide tool safeMode stepRequiresApproval hasApproval).needsApproval = false) := by
  intro tool sm sra ha
  obtain ⟨n, d, dd⟩ := tool
  refine ⟨?_, ?_, ?_⟩ <;> cases sra <;> cases sm <;> cases dd <;> simp [decide]

theorem c6_witness :
    (decide { name := "delete_column", description := "", destructive := true }
        true true true).needsApproval = true :=
  (c6_policy_decide { name := "delete_column", description := "", destructive := true }
      true true true).2.1 rfl

/-- C8: For every target path, calling capture on the target and then
immediately calling restore on the returned snapshot, with no intervening
writes, returns the target to a byte-identical state: the restore
succeeds without force (the current state still matches the captured
content) and the resulting workspace agrees with the original workspace
at every path. -/
theorem c8_capture_restore_roundtrip :
    ∀ (store : List Snapshot) (w : Workspace) (runId : Option String)
      (kind targetPath : String),
      restore (capture store w runId kind targetPath).1 w false
        = Except.ok (writeTarget w targetPath (readTarget w targetPath))
      ∧ ∀ q : String, writeTarget w targetPath (readTarget w targetPath) q = w q := by
  intro store w runId kind targetPath
  constructor
  · unfold restore capture
    simp [readTarget]
  · intro q
    unfold writeTarget readTarget
    by_cases hq : q = targetPath
    · rw [if_pos hq, hq]
    · rw [if_neg hq]

/-- C9: For every paginated list in the control plane and every sequence
of pagination actions starting from a state whose offset is a
non-negative multiple of a non-negative limit, the offset stays a
non-negative multiple of the unchanged limit; previous-page is a no-op at
offset 0 and next-page is a no-op when no further page is known to
exist. -/
theorem c9_pager_invariant :
    ∀ (s : PagerState) (acts : List PagerAction),
      0 ≤ s.offset → s.limit ∣ s.offset → 0 ≤ s.limit →
      (0 ≤ (pagerRun s acts).offset
        ∧ (pagerRun s acts).limit = s.limit
        ∧ (pagerRun s acts).limit ∣ (pagerRun s acts).offset)
      ∧ (s.offset = 0 → pagerStep s PagerAction.prev = s)
      ∧ pagerStep s (PagerAction.next false) = s := by
  have main : ∀ (acts : List PagerAction) (s : PagerState),
      0 ≤ s.offset → s.limit ∣ s.offset → 0 ≤ s.limit →
      0 ≤ (pagerRun s acts).offset ∧ (pagerRun s acts).limit = s.limit
        ∧ (pagerRun s acts).limit ∣ (pagerRun s acts).offset := by
    intro acts
    induction acts with
    | nil =>
      intro s h0 hd hl
      exact ⟨h0, rfl, hd⟩
    | cons a acts ih =>
      intro s h0 hd hl
      have hstep := pagerStep_invariant s a h0 hd hl
      have hl2 : 0 ≤ (pagerStep s a).limit := by
        rw [hstep.2.1]
        exact hl
      have hrec := ih (pagerStep s a) hstep.1 hstep.2.2 hl2
      simp only [pagerRun, List.foldl_cons] at hrec ⊢
      exact ⟨hrec.1, hrec.2.1.trans hstep.2.1, hrec.2.2⟩
  intro s acts h0 hd hl
  refine ⟨main acts s h0 hd hl, ?_, ?_⟩
  · intro hz
    simp [pagerStep, hz]
  · simp [pagerStep]

theorem c9_witness :
    0 ≤ (pagerRun { offset := 0, limit := 10 }
          [PagerAction.next true, PagerAction.prev, PagerAction.prev]).offset
    ∧ (pagerRun { offset := 0, limit := 10 }
          [PagerAction.next true, PagerAction.prev, PagerAction.prev]).limit = 10
    ∧ (pagerRun { offset := 0, limit := 10 }
          [PagerAction.next true, PagerAction.prev, PagerAction.prev]).limit
        ∣ (pagerRun { offset := 0, limit := 10 }
          [PagerAction.next true, PagerAction.prev, PagerAction.prev]).offset := by
  have h := c9_pager_invariant { offset := 0, limit := 10 }
    [PagerAction.next true, PagerAction.prev, PagerAction.prev]
    (by decide) (dvd_zero _) (by decide)
  exact h.1

/-- C10: Deriving a step status from a run is total with default
"pending": whenever a step has no id (including the falsy empty string)
or no log entry carries its id, the derived status is "pending"; as a
consequence the applied count of completionPercent is unchanged by
restricting to steps that do have a matching entry, so id-less and
entry-less steps count in the denominator but never in the applied
count. -/
theorem c10_step_status_default :
    (∀ (run : AgentRun) (stepId : Option String),
      (stepId = none ∨ stepId = some "" ∨ ∀ e ∈ run.log, e.step_id ≠ stepId) →
      stepStatus run stepId = "pending")
    ∧ ∀ run : AgentRun,
        appliedStepCount run
          = ((run.plan.steps.filter (fun s => stepHasEntry run s)).filter
              (fun s => stepStatus run s.id == "applied")).length := by
  constructor
  · intro run stepId hyp
    cases stepId with
    | none => rfl
    | some sid =>
      by_cases he : sid = ""
      · simp [stepStatus, he]
      · have hno : ∀ e ∈ run.log, e.step_id ≠ some sid := by
          rcases hyp with h | h | h
          · exact absurd h (by simp)
          · exact absurd (Option.some_injective _ h) he
          · exact h
        have hf : run.log.find? (fun item => item.step_id == some sid) = none := by
          rw [List.find?_eq_none]
          intro e he2
          simp [hno e he2]
        simp [stepStatus, he, hf]
  · intro run
    unfold appliedStepCount
    rw [List.filter_filter]
    refine congrArg List.length (List.filter_congr ?_).symm
    intro s hs
    cases hb : (stepStatus run s.id == "applied") with
    | false => simp
    | true =>
      have happ : stepStatus run s.id = "applied" := eq_of_beq hb
      simp [stepStatus_applied_hasEntry run s happ]

theorem c10_witness : stepStatus c10Run none = "pending" :=
  c10_step_status_default.1 c10Run none (Or.inl rfl)

/-- C1: For every destructive step executed with safe mode on and no
approval recorded, the Step Executor never invokes the apply path of the
tool (no mutation occurs): it only runs the dry-run path, marks the
LogEntry status pending, and returns without touching the Snapshot Store
or the workspace. -/
theorem c1_no_approval_no_mutation :
    ∀ (registry : List AgentTool) (st : ExecState) (runId : Option String)
      (step : OrchStep) (args : String) (tname : String) (tool : AgentTool),
      step.tool = some tname →
      registry.find? (fun t => t.name == tname) = some tool →
      tool.destructive = true →
      tool.validate args = true →
      (executeStep registry true st runId step args []).invokedApply = false
      ∧ (executeStep registry true st runId step args []).entry.status = EntryStatus.pending
      ∧ (executeStep registry true st runId step args []).state.snapshots = st.snapshots
      ∧ ∀ p : String, (executeStep registry true st runId step args []).state.workspace p
          = st.workspace p := by
  intro registry st runId step args tname tool hstep hfind hdest hval
  have hgate :
      executeStep registry true st runId step args []
        = { state := st,
            entry := { step_id := step.id, tool := some tname, status := EntryStatus.pending,
                       output := tool.dryRunTool args st.workspace, approvals := [] },
            invokedApply := false } := by
    unfold executeStep
    simp only [hstep, hfind, hval]
    rw [if_neg (by simp)]
    have hna : (decide tool.toToolDescriptor true step.requires_approval
        false).needsApproval = true := by
      unfold decide
      cases hra : step.requires_approval <;> simp [hdest]
    rw [if_pos (by simp [hna])]
  rw [hgate]
  exact ⟨rfl, rfl, rfl, fun p => rfl⟩

theorem c1_witness :
    (executeStep [sampleTool] true sampleState none sampleStep "x" []).invokedApply = false
    ∧ (executeStep [sampleTool] true sampleState none sampleStep "x" []).entry.status
        = EntryStatus.pending
    ∧ (executeStep [sampleTool] true sampleState none sampleStep "x" []).state.snapshots
        = sampleState.snapshots := by
  have h := c1_no_approval_no_mutation [sampleTool] sampleState none sampleStep "x"
    "delete_column" sampleTool rfl rfl rfl rfl
  exact ⟨h.1, h.2.1, h.2.2.1⟩

/-- C7: For every run, if the execution result of a step is failed and
the step is not optional while every earlier step applied, the run status
is failed and no later step is attempted: the journal holds exactly the
entries of the steps up to and including the failed one (so the applied
entries of the earlier steps are retained untouched), and every journal
entry belongs to a step at or before the failed position. -/
theorem c7_fail_fast :
    ∀ (outcome : OrchStep → EntryStatus) (steps : List OrchStep) (k : ℕ)
      (hk : k < steps.length),
      outcome (steps.get ⟨k, hk⟩) = EntryStatus.failed →
      (steps.get ⟨k, hk⟩).optional = false →
      (∀ j (hj : j < steps.length), j < k → outcome (steps.get ⟨j, hj⟩) = EntryStatus.applied) →
      (driveSteps outcome steps).2 = RunStatus.failed
      ∧ (driveSteps outcome steps).1 = (steps.take (k + 1)).map (stepEntry outcome)
      ∧ ∀ e ∈ (driveSteps outcome steps).1, ∃ j, ∃ hj : j < steps.length,
          j ≤ k ∧ e.step_id = (steps.get ⟨j, hj⟩).id := by
  intro outcome steps
  induction steps with
  | nil =>
    intro k hk
    exact absurd hk (Nat.not_lt_zero k)
  | cons s rest ih =>
    intro k hk hfail hopt hprev
    cases k with
    | zero =>
      have h1 : outcome s = EntryStatus.failed := hfail
      have h2 : s.optional = false := hopt
      refine ⟨?_, ?_, ?_⟩
      · simp [driveSteps, h1, h2]
      · simp [driveSteps, h1, h2]
      · intro e he
        simp [driveSteps, h1, h2] at he
        exact ⟨0, hk, Nat.le_refl 0, by subst he; exact rfl⟩
    | succ k =>
      have h0 : outcome s = EntryStatus.applied := hprev 0 (Nat.succ_pos _) (Nat.succ_pos k)
      have hk' : k < rest.length := Nat.lt_of_succ_lt_succ hk
      have hfail' : outcome (rest.get ⟨k, hk'⟩) = EntryStatus.failed := hfail
      have hopt' : (rest.get ⟨k, hk'⟩).optional = false := hopt
      have hprev' : ∀ j (hj : j < rest.length), j < k →
          outcome (rest.get ⟨j, hj⟩) = EntryStatus.applied := by
        intro j hj hjk
        exact hprev (j + 1) (Nat.succ_lt_succ hj) (Nat.succ_lt_succ hjk)
      have ihres := ih k hk' hfail' hopt' hprev'
      have hnf : ¬(outcome s = EntryStatus.failed ∧ s.optional = false) := by
        simp [h0]
      have hnp : ¬(outcome s = EntryStatus.pending) := by
        simp [h0]
      refine ⟨?_, ?_, ?_⟩
      · simp only [driveSteps]
        rw [if_neg hnf, if_neg hnp]
        exact ihres.1
      · simp only [driveSteps]
        rw [if_neg hnf, if_neg hnp]
        simp only [List.take_succ_cons, List.map_cons]
        rw [ihres.2.1]
      · intro e he
        simp only [driveSteps] at he
        rw [if_neg hnf, if_neg hnp] at he
        rcases List.mem_cons.mp he with he | he
        · exact ⟨0, Nat.succ_pos _, Nat.zero_le _, by subst he; exact rfl⟩
        · obtain ⟨j, hj, hjk, hid⟩ := ihres.2.2 e he
          exact ⟨j + 1, Nat.succ_lt_succ hj, Nat.succ_le_succ hjk, hid⟩

theorem c7_witness :
    (driveSteps c7Outcome c7Steps).2 = RunStatus.failed
    ∧ (driveSteps c7Outcome c7Steps).1
        = [{ step_id := "ingest", tool := some "ingest", status := EntryStatus.applied,
             output := "", approvals := [] },
           { step_id := "profile", tool := some "profile", status := EntryStatus.failed,
             output := "", approvals := [] }] := by
  have hall : ∀ j (hj : j < c7Steps.length), j < 1 →
      c7Outcome (c7Steps.get ⟨j, hj⟩) = EntryStatus.applied := by
    intro j hj hlt
    have hj0 : j = 0 := by omega
    subst hj0
    show c7Outcome (c7Steps.get ⟨0, by decide⟩) = EntryStatus.applied
    decide
  have h := c7_fail_fast c7Outcome c7Steps 1 (by decide) (by decide) (by decide) hall
  refine ⟨h.1, h.2.1.trans ?_⟩
  decide

/-- C2 counterexample: on a run whose log holds a pending entry appended
before an applied entry for the same step s1, the displayed status is the
status of the FIRST entry ("pending"), not of the latest entry
("applied"): the claim that the latest LogEntry determines the displayed
status is false on this input. -/
theorem c2_counterexample :
    stepStatusSpecLatest c2Run (some "s1") = "applied"
    ∧ stepStatus c2Run (some "s1") = "pending"
    ∧ stepStatus c2Run (some "s1") ≠ stepStatusSpecLatest c2Run (some "s1") := by
  refine ⟨by decide, by decide, by decide⟩

/-- C2 amended: the displayed current status of a step (and the log entry
whose approvals are shown) is taken from the EARLIEST LogEntry with that
step id — the first match of run.log.find — and is "pending" when no
entry carries the id; when re-execution has appended several entries for
the same step, the first appended entry determines the displayed
status. -/
theorem c2_amended_first_entry :
    ∀ (run : AgentRun) (sid : String), sid ≠ "" →
      ((∀ e ∈ run.log, e.step_id ≠ some sid) →
          stepStatus run (some sid) = "pending" ∧ stepLog run (some sid) = none)
      ∧ ∀ i (hi : i < run.log.length),
          (run.log.get ⟨i, hi⟩).step_id = some sid →
          (∀ j (hj : j < run.log.length), j < i → (run.log.get ⟨j, hj⟩).step_id ≠ some sid) →
          stepLog run (some sid) = some (run.log.get ⟨i, hi⟩)
            ∧ stepStatus run (some sid) = (run.log.get ⟨i, hi⟩).status.getD "pending" := by
  intro run sid he
  constructor
  · intro hno
    have hf : run.log.find? (fun item => item.step_id == some sid) = none := by
      rw [List.find?_eq_none]
      intro e he2
      simp [hno e he2]
    constructor
    · simp [stepStatus, he, hf]
    · simp [stepLog, he, hf]
  · intro i hi hhit hfirst
    have hf : run.log.find? (fun item => item.step_id == some sid)
        = some (run.log.get ⟨i, hi⟩) := by
      refine find?_first _ run.log i hi ?_ ?_
      · show ((run.log.get ⟨i, hi⟩).step_id == some sid) = true
        exact beq_iff_eq.mpr hhit
      · intro j hj hji
        show ((run.log.get ⟨j, hj⟩).step_id == some sid) = false
        exact beq_eq_false_iff_ne.mpr (hfirst j hj hji)
    constructor
    · simp [stepLog, he, hf]
    · simp [stepStatus, he, hf]

theorem c2_amended_witness :
    stepLog c2Run (some "s1") = some (mkEntry (some "s1") (some "pending") none)
    ∧ stepStatus c2Run (some "s1") = "pending" := by
  have h := (c2_amended_first_entry c2Run "s1" (by decide)).2 0 (by decide) (by decide)
    (fun j hj hj0 => absurd hj0 (Nat.not_lt_zero j))
  exact ⟨h.1, h.2⟩

/-- C3 counterexample: on a run with 40 steps of which 23 are applied,
the exact percentage is 57.5 and the claim (exact percentage rounded
half-up to the nearest integer) gives 58, but the program computes
Math.round((23 / 40) * 100) in doubles, where the product is
57.49999999999999289... (one unit in the last place below 57.5), and
displays 57. -/
theorem c3_counterexample :
    completionPercent c3xRun = 57
    ∧ completionPercentSpecExact c3xRun = 58
    ∧ completionPercent c3xRun ≠ completionPercentSpecExact c3xRun := by
  have happ : appliedStepCount c3xRun = 23 := by decide
  have hlen : c3xRun.plan.steps.length = 40 := by decide
  have h1 : completionPercent c3xRun = 57 := by
    unfold completionPercent
    rw [if_neg (by rw [hlen]; omega), happ, hlen]
    rw [show ((23 : ℕ) : ℚ) = 23 by norm_num, show ((40 : ℕ) : ℚ) = 40 by norm_num]
    rw [fdiv_23_40, fmul_x1_100]
    unfold jsRound
    rw [Int.floor_eq_iff]
    constructor <;> norm_num
  have h2 : completionPercentSpecExact c3xRun = 58 := by
    rw [specExact_closed_form c3xRun (by rw [hlen]; omega), happ, hlen]
    norm_num
  refine ⟨h1, h2, ?_⟩
  rw [h1, h2]
  decide

/-- C3 amended: for every run, the displayed completion percentage is
Math.round applied to the IEEE-754 double-precision evaluation of
(applied / total) * 100 (applied and total are exact integers since a JS
array length is below 2 ^ 32); it always lies within one half of the
exact percentage and within [0, 100]; whenever the exact percentage is
not an exact half-way value, it equals the exact percentage rounded
half-up to the nearest integer, in integer form
(200 * applied + total) / (2 * total); at exact half-way values the
double product can fall below the half and round down, as in the
counterexample (23 of 40 displays 57, not 58).  For a plan with zero
steps it is 0, and it is a pure function of the plan and the log. -/
theorem c3_completion_percent_amended :
    ∀ run : AgentRun,
      (run.plan.steps.length = 0 → completionPercent run = 0)
      ∧ (∀ (id2 status2 : String),
          completionPercent { id := id2, status := status2, plan := run.plan, log := run.log }
            = completionPercent run)
      ∧ (run.plan.steps.length ≠ 0 → run.plan.steps.length < 2 ^ 32 →
          (¬ (200 * appliedStepCount run + run.plan.steps.length)
                % (2 * run.plan.steps.length) = 0 →
              completionPercent run
                = ((200 * appliedStepCount run + run.plan.steps.length)
                    / (2 * run.plan.steps.length) : ℕ))
          ∧ |(completionPercent run : ℚ)
                - (appliedStepCount run : ℚ) / (run.plan.steps.length : ℚ) * 100| ≤ 1 / 2)
      ∧ 0 ≤ completionPercent run ∧ completionPercent run ≤ 100 := by
  intro run
  have hle : appliedStepCount run ≤ run.plan.steps.length := List.length_filter_le _ _
  by_cases h0 : run.plan.steps.length = 0
  · refine ⟨fun _ => ?_, fun id2 status2 => ?_, fun hne _ => absurd h0 hne, ?_, ?_⟩
    · unfold completionPercent
      rw [if_pos h0]
    · cases run
      rfl
    · unfold completionPercent
      rw [if_pos h0]
    · unfold completionPercent
      rw [if_pos h0]
      norm_num
  · have hcore := float_percent_core (appliedStepCount run) run.plan.steps.length hle h0
    have hval : completionPercent run
        = jsRound (fmul (fdiv (appliedStepCount run : ℚ) (run.plan.steps.length : ℚ)) 100) := by
      unfold completionPercent
      rw [if_neg h0]
    refine ⟨fun h => absurd h h0, fun id2 status2 => ?_, fun _ hbound => ?_, ?_, ?_⟩
    · cases run
      rfl
    · rw [hval]
      exact (hcore.1 hbound)
    · rw [hval]
      exact hcore.2.1
    · rw [hval]
      exact hcore.2.2

theorem c3_witness : completionPercent c3Run = 50 := by
  have h := ((c3_completion_percent_amended c3Run).2.2.1 (by decide) (by decide)).1 (by decide)
  refine h.trans ?_
  decide

/-- C4: For every list of chat messages and every selected run, the
combined feed contains exactly those messages plus the log entries of the
selected run (a permutation of the built feed); it is sorted by timestamp
(any two items with non-falsy times appear in non-decreasing time order);
whenever the comparator does not strictly order a pair the insertion
order is kept, which in particular keeps tool entries with equal or
absent timestamps in the structural order of their log indices (their
comparator value is the index difference) and keeps tied items in stable
insertion order; and the comparator reads only the kind, time and index
of an item, never its content. -/
theorem c4_combined_feed :
    ∀ (messages : List ChatMessage) (runs : List AgentRun) (selectedRunId : String),
      (combinedFeed messages runs selectedRunId).Perm
          (builtFeed messages (runs.find? (fun run => run.id == selectedRunId)))
      ∧ (combinedFeed messages runs selectedRunId).Pairwise
          (fun a b => a.time ≠ 0 → b.time ≠ 0 → a.time ≤ b.time)
      ∧ (∀ a b : FeedItem,
          List.Sublist [a, b]
            (builtFeed messages (runs.find? (fun run => run.id == selectedRunId))) →
          feedCmp a b ≤ 0 →
          List.Sublist [a, b] (combinedFeed messages runs selectedRunId))
      ∧ (∀ a b a' b' : FeedItem,
          a.isTool = a'.isTool → a.time = a'.time → a.index = a'.index →
          b.isTool = b'.isTool → b.time = b'.time → b.index = b'.index →
          feedCmp a b = feedCmp a' b') := by
  intro messages runs selectedRunId
  refine ⟨?_, ?_, ?_, ?_⟩
  · exact List.perm_insertionSort feedLe _
  · exact chain'_pairwise_time _
      (chain'_insertionSort
        (builtFeed messages (runs.find? (fun run => run.id == selectedRunId))))
  · intro a b hsub hle
    exact List.pair_sublist_insertionSort (show feedLe a b from hle) hsub
  · intro a b a' b' h1 h2 h3 h4 h5 h6
    unfold feedCmp
    rw [h1, h2, h3, h4, h5, h6]

theorem c4_witness :
    List.Sublist [c4ItemA, c4ItemB] (combinedFeed [] [c4Run] "wr") := by
  have h := (c4_combined_feed [] [c4Run] "wr").2.2.1 c4ItemA c4ItemB
    (by
      show List.Sublist [c4ItemA, c4ItemB] (builtFeed [] (List.find? (fun run => run.id == "wr") [c4Run]))
      exact List.Sublist.refl _)
    (by decide)
  exact h

end DataAnalyst
